import Mathlib

/-!
Verification development for the tag-resolution engine of `path-tagging`
(`src/lib.rs`).

Shallow embedding conventions:

* `String` stands for both tag names and filesystem paths (`PathBuf` is
  opaque to the engine).
* A Rust `HashSet` field is embedded as a `List` carrying the (otherwise
  unspecified) iteration order; query results (`HashSet` values built by
  the engine) are embedded as `Finset`s, since only membership is
  observable on them.
* The tag store (`RawTag::load`, i.e. the `.tags` directory on disk) is an
  association list from names to records; `none` from lookup models the
  `NotFound` / `Resolve` outcomes that the resolver treats as "no record".
  Fatal I/O and parse failures are not modelled, so the `Load` error arm
  of `ResolveError` does not occur in this embedding.
* Functions whose Rust originals recurse through the tag graph
  (`helper` inside `TryFrom`, `union_helper`, `all_tags`) can diverge on
  cyclic graphs, so they are embedded with an explicit fuel argument that
  every recursive call decrements; running out of fuel is a distinguished
  outcome.  Divergence of the original corresponds to "out of fuel for
  every fuel".
-/

/-- Tag names (`String` keys of the store). -/
abbrev TagName := String

/-- Filesystem paths (`PathBuf`), opaque to the engine. -/
abbrev FsPath := String

/-- `RawTag` from `src/lib.rs`: a set of included tag names, a set of
inherited tag names and a set of owned paths.  The lists carry the
`HashSet` iteration order. -/
structure RawTag where
  include_tags : List TagName
  inherited_tags : List TagName
  paths : List FsPath
deriving DecidableEq, Repr, Inhabited

/-- `RawTag::query`: a record with the given `include_tags` and everything
else empty. -/
def RawTag.query (include_tags : List TagName) : RawTag :=
  ⟨include_tags, [], []⟩

/-- The accumulating name → record mapping (`HashMap<String, RawTag>`).
Insertion is modelled as `cons`, and `List.lookup` returns the most recent
binding, matching `HashMap::insert` overwrite semantics. -/
abbrev TagMap := List (TagName × RawTag)

/-- The tag store (`RawTag::load` over the `.tags` directory): a finite
association from names to records; absent names are the store's
not-found signal. -/
abbrev Store := List (TagName × RawTag)

/-- `ResolvedTags` from `src/lib.rs`: the root record plus the mapping of
all transitively loaded records. -/
structure ResolvedTags where
  raw : RawTag
  tags : TagMap
deriving DecidableEq, Repr

/-- The key set iterated by the resolver:
`raw.include_tags.union(raw.inherited_tags())`.  `HashSet::union` visits
`self`'s elements first, then the elements of the other set that are not
in `self`. -/
def keysOf (raw : RawTag) : List TagName :=
  raw.include_tags ++ raw.inherited_tags.filter (fun k => !raw.include_tags.contains k)

/-- `ResolvedTags::contains`: the path is in the root's own `paths`, or in
the `paths` of a directly included tag that is present in the mapping
(`filter_map(|key| self.tags.get(key)).any(...)`). -/
def ResolvedTags.contains (r : ResolvedTags) (p : FsPath) : Bool :=
  r.raw.paths.contains p ||
    r.raw.include_tags.any fun key =>
      match List.lookup key r.tags with
      | some tag => tag.paths.contains p
      | none => false

/-- Fueled embedding of `ResolvedTags::union_helper` ranging over a list of
include keys: for each key that the mapping knows, recursively union that
record's includes, add its `paths`, and continue with the remaining keys.
Each recursive call costs one unit of fuel; `none` means the fuel ran
out (the original diverges on cyclic mappings). -/
def unionKeysFuel (tags : TagMap) : Nat → List TagName → Option (Finset FsPath)
  | _, [] => some ∅
  | 0, _ :: _ => none
  | n + 1, key :: keys =>
    match List.lookup key tags with
    | none => unionKeysFuel tags n keys
    | some tag =>
      match unionKeysFuel tags n tag.include_tags, unionKeysFuel tags n keys with
      | some s₁, some s₂ => some ((s₁ ∪ tag.paths.toFinset) ∪ s₂)
      | _, _ => none

/-- `ResolvedTags::union_at`: the union accumulated over `raw`'s includes
plus `raw`'s own paths. -/
def ResolvedTags.union_at (tags : TagMap) (fuel : Nat) (raw : RawTag) :
    Option (Finset FsPath) :=
  (unionKeysFuel tags fuel raw.include_tags).map (fun s => s ∪ raw.paths.toFinset)

/-- `ResolvedTags::union`: `union_at` on the root record. -/
def ResolvedTags.union (r : ResolvedTags) (fuel : Nat) : Option (Finset FsPath) :=
  ResolvedTags.union_at r.tags fuel r.raw

/-- `fallible_intersection` from `ResolvedTags::intersection`: `None` is
absorbing, two present sets are intersected.  (The original swaps the
operands by capacity before `retain`; the resulting set is the
intersection either way.) -/
def fallible_intersection :
    Option (Finset FsPath) → Option (Finset FsPath) → Option (Finset FsPath)
  | some a, some b => some (a ∩ b)
  | _, _ => none

/-- One round of `itertools::tree_reduce`: combine adjacent pairs. -/
def pairUp (f : α → α → α) : List α → List α
  | a :: b :: rest => f a b :: pairUp f rest
  | l => l

/-- Fueled iteration of `pairUp` rounds; `l.length` rounds always
suffice (see `treeReduceFuel_eq_reduceL`). -/
def treeReduceFuel (f : α → α → α) : Nat → List α → Option α
  | _, [] => none
  | _, [a] => some a
  | 0, _ :: _ :: _ => none
  | n + 1, a :: b :: rest => treeReduceFuel f n (pairUp f (a :: b :: rest))

/-- `itertools::Itertools::tree_reduce`: balanced pairwise reduction;
`none` on the empty list. -/
def treeReduce (f : α → α → α) (l : List α) : Option α :=
  treeReduceFuel f l.length l

/-- Left-to-right reduction (`Iterator::reduce` shape): fold the tail onto
the head.  For an associative operation this agrees with `treeReduce`;
it is the "those per-include union sets are then intersected pairwise"
reading of the spec. -/
def reduceL (f : α → α → α) : List α → Option α
  | [] => none
  | a :: l => some (l.foldl f a)

/-- Collect a list of fallible results, failing when any element fails
(used only to thread fuel adequacy of nested `union_at` calls through
`intersection`; the Rust iterator needs nothing of the sort because its
`union_at` simply runs to completion). -/
def optionMapList (g : α → Option β) : List α → Option (List β)
  | [] => some []
  | a :: l =>
    match g a, optionMapList g l with
    | some b, some r => some (b :: r)
    | _, _ => none

/-- `ResolvedTags::intersection`: map every directly included key to
`Some(union_at(tags, tags.get(key)?))` (so a key absent from the mapping
yields `None`), tree-reduce with `fallible_intersection`, flatten,
default to the empty set, and add the root's own paths.  The outer
`Option` is fuel adequacy for the inner `union_at` computations. -/
def ResolvedTags.intersection (r : ResolvedTags) (fuel : Nat) :
    Option (Finset FsPath) :=
  (optionMapList (fun key =>
      match List.lookup key r.tags with
      | none => some none
      | some tag => (ResolvedTags.union_at r.tags fuel tag).map some)
    r.raw.include_tags).map
    fun opts =>
      ((treeReduce fallible_intersection opts).join.getD ∅) ∪ r.raw.paths.toFinset

/-- Fueled embedding of the traversal inside `ResolvedTags::all_tags`:
process a pending list of names; a name not yet in the set is inserted
and, when the mapping has its record, that record's `inherited_tags` are
walked first.  The returned list records the names whose insertion
succeeded, in order (ghost instrumentation used to state the
visited-at-most-once property). -/
def walkFuel (raws : TagMap) :
    Nat → List TagName → List TagName → Option (List TagName × List TagName)
  | _, s, [] => some (s, [])
  | 0, _, _ :: _ => none
  | n + 1, s, t :: ts =>
    if t ∈ s then walkFuel raws n s ts
    else
      match List.lookup t raws with
      | none =>
        match walkFuel raws n (t :: s) ts with
        | some (s₂, tr) => some (s₂, t :: tr)
        | none => none
      | some raw =>
        match walkFuel raws n (t :: s) raw.inherited_tags with
        | some (s₁, tr₁) =>
          match walkFuel raws n s₁ ts with
          | some (s₂, tr₂) => some (s₂, (t :: tr₁) ++ tr₂)
          | none => none
        | none => none

/-- `ResolvedTags::all_tags`: walk starting from the root's
`include_tags` with an initially empty visited set; the result is the
visited set (a `HashSet` in the original, so only membership counts). -/
def ResolvedTags.all_tags (r : ResolvedTags) (fuel : Nat) :
    Option (Finset TagName) :=
  (walkFuel r.tags fuel [] r.raw.include_tags).map fun pair => pair.1.toFinset

/-- Outcome of the fueled resolver loop (`helper` inside
`TryFrom<RawTag> for ResolvedTags`).

* `ok path tags loads`: the loop finished; `path` is the resolution path,
  `tags` the accumulated mapping, `loads` the ghost trace of every key the
  store was asked for, in order.
* `cyclic chain`: the `ResolveError::Cyclic` arm, carrying the resolution
  path plus the offending key appended.
* `fuelOut`: the fuel ran out (the original would still be recursing).
* `ubPop`: the `unwrap_unchecked` on the popped key observed `None`
  (undefined behaviour in the original). -/
inductive RRes where
  | ok (path : List TagName) (tags : TagMap) (loads : List TagName)
  | cyclic (chain : List TagName)
  | fuelOut
  | ubPop
deriving DecidableEq, Repr

/-- Fueled embedding of `helper` from `TryFrom<RawTag> for ResolvedTags`,
specialised to the loop over an explicit key list (`keysOf raw`).  Per
key, in source order: the cycle check against the resolution path, the
insertion of the key at the back of the path, the store load, the
`pop_back` (before any recursion!), then — only when a record was found —
the recursive descent followed by the unchecked unwrap of the popped key
and the mapping insertion.  Every recursive call, including the walk to
the next key, costs one unit of fuel. -/
def stepFuel (store : Store) :
    Nat → List TagName → TagMap → List TagName → List TagName → RRes
  | _, path, tags, [], loads => .ok path tags loads
  | 0, _, _, _ :: _, _ => .fuelOut
  | n + 1, path, tags, key :: keys, loads =>
    if key ∈ path then
      .cyclic (path ++ [key])
    else
      let path₁ := path ++ [key]
      let popped := path₁.getLast?
      let path₂ := path₁.dropLast
      let loads₁ := loads ++ [key]
      match List.lookup key store with
      | none => stepFuel store n path₂ tags keys loads₁
      | some tag =>
        match stepFuel store n path₂ tags (keysOf tag) loads₁ with
        | .ok path₃ tags₃ loads₂ =>
          match popped with
          | none => .ubPop
          | some k => stepFuel store n path₃ ((k, tag) :: tags₃) keys loads₂
        | e => e

/-- Outcome of the fueled `TryFrom<RawTag> for ResolvedTags`. -/
inductive TryFromResult where
  | ok (r : ResolvedTags)
  | cyclic (chain : List TagName)
  | fuelOut
  | ubPop
deriving DecidableEq, Repr

/-- Fueled embedding of `ResolvedTags::try_from`: run the loop on the
root's keys with an empty resolution path and mapping, and package the
mapping with the untouched root record. -/
def tryFromFuel (store : Store) (fuel : Nat) (raw : RawTag) : TryFromResult :=
  match stepFuel store fuel [] [] (keysOf raw) [] with
  | .ok _ tags _ => .ok ⟨raw, tags⟩
  | .cyclic c => .cyclic c
  | .fuelOut => .fuelOut
  | .ubPop => .ubPop

/-- Names reachable from a seed list of keys by following `include_tags`
edges through records present in the mapping (the reachability relation of
`union_helper`). -/
inductive IncReach (tags : TagMap) : List TagName → TagName → Prop
  | base {ks k} : k ∈ ks → IncReach tags ks k
  | step {ks k t k'} : IncReach tags ks k → List.lookup k tags = some t →
      k' ∈ t.include_tags → IncReach tags ks k'

/-- Names reachable from a seed list by following `inherited_tags` edges
through records present in the mapping (the reachability relation of
`all_tags`); the seeds themselves are reachable. -/
inductive InhReach (raws : TagMap) : List TagName → TagName → Prop
  | base {ks k} : k ∈ ks → InhReach raws ks k
  | step {ks k t k'} : InhReach raws ks k → List.lookup k raws = some t →
      k' ∈ t.inherited_tags → InhReach raws ks k'

/-- Names reachable from a seed list by following resolver key edges
(`include_tags ∪ inherited_tags`) through records present in the store. -/
inductive KeyReach (store : Store) : List TagName → TagName → Prop
  | base {ks k} : k ∈ ks → KeyReach store ks k
  | step {ks k t k'} : KeyReach store ks k → List.lookup k store = some t →
      k' ∈ keysOf t → KeyReach store ks k'

/-! ### Concrete stores used by the claims -/

/-- A two-tag cycle: `A` includes `B` and `B` includes `A`. -/
def cycStore : Store := [("A", ⟨["B"], [], []⟩), ("B", ⟨["A"], [], []⟩)]

/-- The root reaching the cycle: an ad-hoc query of `A`. -/
def cycRoot : RawTag := RawTag.query ["A"]

/-- Tag `work` with paths `/a`, `/b` (spec's concrete scenario). -/
def workTag : RawTag := ⟨[], [], ["/a", "/b"]⟩

/-- Tag `urgent` with paths `/b`, `/c` (spec's concrete scenario). -/
def urgentTag : RawTag := ⟨[], [], ["/b", "/c"]⟩

/-- The store of the union/intersection scenario. -/
def scenarioStore : Store := [("work", workTag), ("urgent", urgentTag)]

/-- The ad-hoc query record `include_tags = {work, urgent}`. -/
def scenarioQuery : RawTag := RawTag.query ["work", "urgent"]

/-- The resolved graph the resolver produces for `scenarioQuery` over
`scenarioStore` (checked inside the claim theorems). -/
def scenarioResolved : ResolvedTags :=
  ⟨scenarioQuery, [("urgent", urgentTag), ("work", workTag)]⟩

/-- A diamond: the query includes `a` and `b`, both of which include `d`. -/
def diamondStore : Store :=
  [("a", ⟨["d"], [], []⟩), ("b", ⟨["d"], [], []⟩), ("d", ⟨[], [], ["/p"]⟩)]

/-- Tag `parent` inheriting `child` (spec's `all_tags` scenario). -/
def parentTag : RawTag := ⟨[], ["child"], []⟩

/-- Tag `child`, a leaf with path `/x` (spec's `all_tags` scenario). -/
def childTag : RawTag := ⟨[], [], ["/x"]⟩

/-- The store of the `all_tags` scenario. -/
def inhStore : Store := [("parent", parentTag), ("child", childTag)]

/-- The resolved graph the resolver produces for the query `{parent}` over
`inhStore` (checked inside the claim theorems). -/
def inhResolved : ResolvedTags :=
  ⟨RawTag.query ["parent"], [("parent", parentTag), ("child", childTag)]⟩

/-! ### The unchecked unwrap never observes `None` (claim C10) -/

theorem stepFuel_ne_ubPop (store : Store) :
    ∀ (fuel : Nat) (path : List TagName) (tags : TagMap) (keys loads : List TagName),
      stepFuel store fuel path tags keys loads ≠ RRes.ubPop := by
  intro fuel
  induction fuel with
  | zero =>
    intro path tags keys loads
    cases keys <;> simp [stepFuel]
  | succ n ih =>
    intro path tags keys loads
    cases keys with
    | nil => simp [stepFuel]
    | cons key keys =>
      simp only [stepFuel, List.dropLast_concat, List.getLast?_concat]
      split
      · simp
      · cases hstore : List.lookup key store with
        | none => exact ih _ _ _ _
        | some tag =>
          dsimp only
          cases hrec : stepFuel store n path tags (keysOf tag) (loads ++ [key]) with
          | ok path₃ tags₃ loads₂ => exact ih _ _ _ _
          | cyclic c => simp
          | fuelOut => simp
          | ubPop => exact absurd hrec (ih _ _ _ _)

/-- Claim C10: in every execution of the fueled resolver, the unchecked
unwrap of the key popped from the resolution path never observes `None`:
the popped key was appended to the path immediately before, so `pop_back`
necessarily returns it, on every path through the function and for the
top-level `try_from` as well. -/
theorem resolver_unwrap_safe :
    (∀ (store : Store) (fuel : Nat) (path : List TagName) (tags : TagMap)
        (keys loads : List TagName),
        stepFuel store fuel path tags keys loads ≠ RRes.ubPop) ∧
    (∀ (store : Store) (fuel : Nat) (raw : RawTag),
        tryFromFuel store fuel raw ≠ TryFromResult.ubPop) := by
  refine ⟨stepFuel_ne_ubPop, ?_⟩
  intro store fuel raw
  unfold tryFromFuel
  cases h : stepFuel store fuel [] [] (keysOf raw) [] with
  | ok p t l => simp
  | cyclic c => simp
  | fuelOut => simp
  | ubPop => exact absurd h (stepFuel_ne_ubPop store fuel [] [] (keysOf raw) [])

/-! ### The two-tag cycle makes the resolver diverge (claim C1) -/

theorem cycStore_loop :
    ∀ (n : Nat) (tags : TagMap) (loads : List TagName),
      stepFuel cycStore n [] tags ["A"] loads = RRes.fuelOut ∧
      stepFuel cycStore n [] tags ["B"] loads = RRes.fuelOut := by
  intro n
  induction n with
  | zero => intro tags loads; exact ⟨rfl, rfl⟩
  | succ n ih =>
    intro tags loads
    have hA : List.lookup "A" cycStore = some ⟨["B"], [], []⟩ := rfl
    have hB : List.lookup "B" cycStore = some ⟨["A"], [], []⟩ := rfl
    have kA : keysOf (⟨["B"], [], []⟩ : RawTag) = ["B"] := rfl
    have kB : keysOf (⟨["A"], [], []⟩ : RawTag) = ["A"] := rfl
    constructor
    · simp [stepFuel, hA, kA, (ih tags (loads ++ ["A"])).2]
    · simp [stepFuel, hB, kB, (ih tags (loads ++ ["B"])).1]

/-- Claim C1 (code bug evidence): on the two-tag cycle `A → B → A` the
resolver never returns at all — for every fuel it is still recursing
(`fuelOut`), and in particular it never produces the `Cyclic` error the
spec requires.  The cause: `pop_back` is called before the recursive
descent, so the resolution path is empty at every cycle check. -/
theorem cyclic_store_diverges :
    ∀ fuel : Nat, tryFromFuel cycStore fuel cycRoot = TryFromResult.fuelOut := by
  intro fuel
  unfold tryFromFuel
  have hkeys : keysOf cycRoot = ["A"] := rfl
  rw [hkeys, (cycStore_loop fuel [] []).1]

/-! ### `contains` is a one-level check (claim C4) -/

/-- Claim C4: `contains(p)` holds exactly when `p` is among the root's own
paths, or among the paths of a tag that is a key of the root's
`include_tags` and is present in the mapping — one level of includes, and
total (Bool-valued, no error path). -/
theorem contains_iff (r : ResolvedTags) (p : FsPath) :
    ResolvedTags.contains r p = true ↔
      p ∈ r.raw.paths ∨ ∃ key tag, key ∈ r.raw.include_tags ∧
        List.lookup key r.tags = some tag ∧ p ∈ tag.paths := by
  unfold ResolvedTags.contains
  simp only [Bool.or_eq_true, List.any_eq_true, List.elem_iff]
  constructor
  · rintro (h | ⟨key, hk, hm⟩)
    · exact Or.inl h
    · cases hl : List.lookup key r.tags with
      | none => rw [hl] at hm; simp at hm
      | some tag =>
        rw [hl] at hm
        exact Or.inr ⟨key, tag, hk, hl, by simpa using hm⟩
  · rintro (h | ⟨key, tag, hk, hl, hp⟩)
    · exact Or.inl h
    · exact Or.inr ⟨key, hk, by rw [hl]; simpa using hp⟩

/-! ### `tree_reduce` agrees with left-to-right reduction -/

theorem pairUp_length_le (f : α → α → α) : ∀ l : List α, (pairUp f l).length ≤ l.length
  | [] => by simp [pairUp]
  | [_] => by simp [pairUp]
  | _ :: _ :: rest => by
    simp only [pairUp, List.length_cons]
    have := pairUp_length_le f rest
    omega

theorem foldl_pairUp (f : α → α → α) (hf : ∀ a b c, f (f a b) c = f a (f b c)) :
    ∀ (l : List α) (acc : α), List.foldl f acc (pairUp f l) = List.foldl f acc l
  | [], _ => rfl
  | [_], _ => rfl
  | a :: b :: rest, acc => by
    simp only [pairUp, List.foldl_cons]
    rw [foldl_pairUp f hf rest, hf]

theorem treeReduceFuel_eq_reduceL (f : α → α → α)
    (hf : ∀ a b c, f (f a b) c = f a (f b c)) :
    ∀ (n : Nat) (l : List α), l.length ≤ n + 1 → treeReduceFuel f n l = reduceL f l := by
  intro n
  induction n with
  | zero =>
    intro l hl
    cases l with
    | nil => rfl
    | cons a l' =>
      cases l' with
      | nil => rfl
      | cons b rest => simp at hl
  | succ m ih =>
    intro l hl
    cases l with
    | nil => rfl
    | cons a l' =>
      cases l' with
      | nil => rfl
      | cons b rest =>
        show treeReduceFuel f m (pairUp f (a :: b :: rest)) = _
        rw [ih _ (by
          simp only [pairUp, List.length_cons]
          have := pairUp_length_le f rest
          simp only [List.length_cons] at hl
          omega)]
        simp only [pairUp, reduceL, List.foldl_cons]
        rw [foldl_pairUp f hf rest]

theorem treeReduce_eq_reduceL (f : α → α → α)
    (hf : ∀ a b c, f (f a b) c = f a (f b c)) (l : List α) :
    treeReduce f l = reduceL f l :=
  treeReduceFuel_eq_reduceL f hf l.length l (Nat.le_succ_of_le (Nat.le_refl _))

theorem fallible_intersection_assoc (a b c : Option (Finset FsPath)) :
    fallible_intersection (fallible_intersection a b) c =
      fallible_intersection a (fallible_intersection b c) := by
  cases a <;> cases b <;> cases c <;> simp [fallible_intersection, Finset.inter_assoc]

theorem fallible_intersection_comm (a b : Option (Finset FsPath)) :
    fallible_intersection a b = fallible_intersection b a := by
  cases a <;> cases b <;> simp [fallible_intersection, Finset.inter_comm]

/-! ### Collecting fallible results -/

theorem optionMapList_some_of_forall₂ (g : α → Option β) :
    ∀ {l : List α} {r : List β},
      List.Forall₂ (fun a b => g a = some b) l r → optionMapList g l = some r := by
  intro l r h
  induction h with
  | nil => rfl
  | cons ha _ ih => simp [optionMapList, ha, ih]

theorem forall₂_of_optionMapList_some (g : α → Option β) :
    ∀ {l : List α} {r : List β},
      optionMapList g l = some r → List.Forall₂ (fun a b => g a = some b) l r := by
  intro l
  induction l with
  | nil =>
    intro r h
    simp only [optionMapList, Option.some_inj] at h
    subst h
    exact .nil
  | cons a l ih =>
    intro r h
    simp only [optionMapList] at h
    cases hga : g a with
    | none => rw [hga] at h; simp at h
    | some b =>
      rw [hga] at h
      cases hml : optionMapList g l with
      | none => rw [hml] at h; simp at h
      | some r' =>
        rw [hml] at h
        simp only [Option.some_inj] at h
        subst h
        exact .cons hga (ih hml)

theorem optionMapList_perm (g : α → Option β) {l₁ l₂ : List α} (p : l₁.Perm l₂) :
    ∀ {r : List β}, optionMapList g l₁ = some r →
      ∃ r', optionMapList g l₂ = some r' ∧ r.Perm r' := by
  induction p with
  | nil => intro r h; exact ⟨r, h, List.Perm.refl r⟩
  | @cons a l₁' l₂' hp ih =>
    intro r h
    simp only [optionMapList] at h
    cases hga : g a with
    | none => rw [hga] at h; simp at h
    | some b =>
      rw [hga] at h
      cases hml : optionMapList g l₁' with
      | none => rw [hml] at h; simp at h
      | some r₁ =>
        rw [hml] at h
        simp only [Option.some_inj] at h
        subst h
        obtain ⟨r₂, h₂, hp₂⟩ := ih hml
        exact ⟨b :: r₂, by simp [optionMapList, hga, h₂], List.Perm.cons b hp₂⟩
  | swap a b l =>
    intro r h
    simp only [optionMapList] at h
    cases hgb : g b with
    | none => rw [hgb] at h; simp at h
    | some vb =>
      rw [hgb] at h
      cases hga : g a with
      | none => rw [hga] at h; simp at h
      | some va =>
        rw [hga] at h
        cases hml : optionMapList g l with
        | none => rw [hml] at h; simp at h
        | some r' =>
          rw [hml] at h
          simp only [Option.some_inj] at h
          subst h
          refine ⟨va :: vb :: r', ?_, List.Perm.swap va vb r'⟩
          simp [optionMapList, hga, hgb, hml]
  | trans _ _ ih₁ ih₂ =>
    intro r h
    obtain ⟨r₁, h₁, hp₁⟩ := ih₁ h
    obtain ⟨r₂, h₂, hp₂⟩ := ih₂ h₁
    exact ⟨r₂, h₂, hp₁.trans hp₂⟩

/-! ### Reduction is invariant under permutation for commutative,
associative operations -/

/-- `Iterator::reduce` as a single fold whose accumulator starts absent. -/
def optStep (f : α → α → α) : Option α → α → Option α :=
  fun o a =>
    some (match o with
          | none => a
          | some b => f b a)

theorem foldl_optStep_some (f : α → α → α) :
    ∀ (l : List α) (b : α), List.foldl (optStep f) (some b) l = some (List.foldl f b l)
  | [], _ => rfl
  | _ :: l, _ => foldl_optStep_some f l _

theorem reduceL_eq_foldl_optStep (f : α → α → α) (l : List α) :
    reduceL f l = List.foldl (optStep f) none l := by
  cases l with
  | nil => rfl
  | cons a l => exact (foldl_optStep_some f l a).symm

theorem reduceL_perm (f : α → α → α)
    (hcomm : ∀ a b, f a b = f b a)
    (hassoc : ∀ a b c, f (f a b) c = f a (f b c))
    {l₁ l₂ : List α} (p : l₁.Perm l₂) : reduceL f l₁ = reduceL f l₂ := by
  rw [reduceL_eq_foldl_optStep, reduceL_eq_foldl_optStep]
  refine p.foldl_eq' (fun x _ y _ z => ?_) none
  cases z with
  | none => simp [optStep, hcomm x y]
  | some b =>
    simp only [optStep]
    rw [hassoc, hassoc, hcomm x y]

theorem treeReduce_perm_fallible {l₁ l₂ : List (Option (Finset FsPath))}
    (p : l₁.Perm l₂) :
    treeReduce fallible_intersection l₁ = treeReduce fallible_intersection l₂ := by
  rw [treeReduce_eq_reduceL fallible_intersection fallible_intersection_assoc,
    treeReduce_eq_reduceL fallible_intersection fallible_intersection_assoc]
  exact reduceL_perm fallible_intersection fallible_intersection_comm
    fallible_intersection_assoc p

/-! ### `intersection` computes root paths plus the intersection of the
per-include unions (claim C5) -/

theorem join_map_some (o : Option α) : (o.map some).join = o := by
  cases o <;> rfl

theorem foldl_fallible_map_some :
    ∀ (us : List (Finset FsPath)) (a : Finset FsPath),
      List.foldl fallible_intersection (some a) (us.map some) =
        some (us.foldl (fun x y => x ∩ y) a)
  | [], _ => rfl
  | _ :: us, _ => foldl_fallible_map_some us _

theorem reduceL_fallible_map_some (us : List (Finset FsPath)) :
    reduceL fallible_intersection (us.map some) =
      (reduceL (fun x y => x ∩ y) us).map some := by
  cases us with
  | nil => rfl
  | cons u us =>
    simp only [List.map_cons, reduceL, foldl_fallible_map_some us u, Option.map_some']

theorem treeReduce_fallible_map_some (us : List (Finset FsPath)) :
    treeReduce fallible_intersection (us.map some) =
      (reduceL (fun x y => x ∩ y) us).map some := by
  rw [treeReduce_eq_reduceL fallible_intersection fallible_intersection_assoc]
  exact reduceL_fallible_map_some us

/-- Claim C5: whenever every directly included key of the root is present
in the mapping and its transitive union converges to `uᵢ`, `intersection`
returns the root's own paths unioned with the reduction of the `uᵢ` by
pairwise set intersection (the per-include unions are computed first, then
intersected); and on the spec's concrete scenario (`work` owning `/a`,
`/b`; `urgent` owning `/b`, `/c`), the resolver produces the expected
graph, `intersection()` is `{/b}` and `union()` is `{/a, /b, /c}`. -/
theorem intersection_matches_spec :
    (∀ (r : ResolvedTags) (fuel : Nat) (us : List (Finset FsPath)),
      List.Forall₂ (fun k u => ∃ t, List.lookup k r.tags = some t ∧
          ResolvedTags.union_at r.tags fuel t = some u) r.raw.include_tags us →
      ResolvedTags.intersection r fuel =
        some (((reduceL (fun x y => x ∩ y) us).getD ∅) ∪ r.raw.paths.toFinset)) ∧
    (tryFromFuel scenarioStore 9 scenarioQuery = TryFromResult.ok scenarioResolved ∧
      ResolvedTags.intersection scenarioResolved 9 = some {"/b"} ∧
      ResolvedTags.union scenarioResolved 9 = some {"/a", "/b", "/c"}) := by
  constructor
  · intro r fuel us hF
    have haux : ∀ (ks : List TagName) (vs : List (Finset FsPath)),
        List.Forall₂ (fun k u => ∃ t, List.lookup k r.tags = some t ∧
            ResolvedTags.union_at r.tags fuel t = some u) ks vs →
        List.Forall₂
          (fun k ob => (match List.lookup k r.tags with
            | none => some none
            | some tag => (ResolvedTags.union_at r.tags fuel tag).map some) = some ob)
          ks (vs.map some) := by
      intro ks vs h
      induction h with
      | nil => exact .nil
      | cons h _ ih =>
        obtain ⟨t, hl, hu⟩ := h
        exact .cons (by simp [hl, hu]) ih
    have hmap := optionMapList_some_of_forall₂ _ (haux _ _ hF)
    unfold ResolvedTags.intersection
    rw [hmap]
    simp only [Option.map_some', Option.some_inj]
    rw [treeReduce_fallible_map_some us, join_map_some]
  · refine ⟨by decide, by decide, by decide⟩

theorem intersection_matches_spec_witness :
    (List.Forall₂ (fun k u => ∃ t, List.lookup k scenarioResolved.tags = some t ∧
        ResolvedTags.union_at scenarioResolved.tags 9 t = some u)
      scenarioResolved.raw.include_tags
      [({"/a", "/b"} : Finset FsPath), {"/b", "/c"}]) ∧
    ResolvedTags.intersection scenarioResolved 9 =
      some (((reduceL (fun x y => x ∩ y)
          [({"/a", "/b"} : Finset FsPath), {"/b", "/c"}]).getD ∅) ∪
        scenarioResolved.raw.paths.toFinset) := by
  have hF : List.Forall₂ (fun k u => ∃ t, List.lookup k scenarioResolved.tags = some t ∧
      ResolvedTags.union_at scenarioResolved.tags 9 t = some u)
      scenarioResolved.raw.include_tags
      [({"/a", "/b"} : Finset FsPath), {"/b", "/c"}] :=
    List.Forall₂.cons ⟨workTag, by decide, by decide⟩
      (List.Forall₂.cons ⟨urgentTag, by decide, by decide⟩ List.Forall₂.nil)
  exact ⟨hF, intersection_matches_spec.1 scenarioResolved 9 _ hF⟩

/-! ### Absent or empty includes collapse the intersection (claim C7) -/

theorem foldl_fallible_none (l : List (Option (Finset FsPath))) :
    List.foldl fallible_intersection none l = none := by
  induction l with
  | nil => rfl
  | cons a l ih =>
    simp only [List.foldl_cons]
    have : fallible_intersection none a = none := by cases a <;> rfl
    rw [this, ih]

theorem foldl_fallible_none_mem (l : List (Option (Finset FsPath)))
    (h : none ∈ l) (acc : Option (Finset FsPath)) :
    List.foldl fallible_intersection acc l = none := by
  induction l generalizing acc with
  | nil => simp at h
  | cons a l ih =>
    rcases List.mem_cons.mp h with h | h
    · subst h
      simp only [List.foldl_cons]
      have : fallible_intersection acc none = none := by cases acc <;> rfl
      rw [this, foldl_fallible_none]
    · simp only [List.foldl_cons]
      exact ih h _

theorem foldl_fallible_pres (l : List (Option (Finset FsPath)))
    (acc : Option (Finset FsPath))
    (hacc : acc = none ∨ acc = some ∅) :
    List.foldl fallible_intersection acc l = none ∨
      List.foldl fallible_intersection acc l = some ∅ := by
  induction l generalizing acc with
  | nil => simpa using hacc
  | cons a l ih =>
    simp only [List.foldl_cons]
    refine ih _ ?_
    rcases hacc with h | h <;> subst h
    · left; cases a <;> rfl
    · cases a with
      | none => left; rfl
      | some s => right; simp [fallible_intersection]

theorem foldl_fallible_empty_mem (l : List (Option (Finset FsPath)))
    (h : some ∅ ∈ l) (acc : Option (Finset FsPath)) :
    List.foldl fallible_intersection acc l = none ∨
      List.foldl fallible_intersection acc l = some ∅ := by
  induction l generalizing acc with
  | nil => simp at h
  | cons a l ih =>
    rcases List.mem_cons.mp h with h | h
    · subst h
      simp only [List.foldl_cons]
      refine foldl_fallible_pres l _ ?_
      cases acc with
      | none => left; rfl
      | some s => right; simp [fallible_intersection]
    · simp only [List.foldl_cons]
      exact ih h _

theorem reduceL_fallible_none_mem {opts : List (Option (Finset FsPath))}
    (h : none ∈ opts) : (reduceL fallible_intersection opts).join = none := by
  cases opts with
  | nil => simp at h
  | cons o l =>
    rcases List.mem_cons.mp h with h | h
    · subst h
      simp [reduceL, foldl_fallible_none]
    · simp [reduceL, foldl_fallible_none_mem l h o]

theorem reduceL_fallible_empty_mem {opts : List (Option (Finset FsPath))}
    (h : some ∅ ∈ opts) :
    (reduceL fallible_intersection opts).join.getD ∅ = ∅ := by
  cases opts with
  | nil => simp at h
  | cons o l =>
    have : List.foldl fallible_intersection o l = none ∨
        List.foldl fallible_intersection o l = some ∅ := by
      rcases List.mem_cons.mp h with h | h
      · subst h
        exact foldl_fallible_pres l _ (Or.inr rfl)
      · exact foldl_fallible_empty_mem l h o
    rcases this with h' | h' <;> simp [reduceL, Option.join, h']

theorem optionMapList_isSome (g : α → Option β) :
    ∀ (l : List α), (∀ a ∈ l, (g a).isSome) → ∃ r, optionMapList g l = some r := by
  intro l
  induction l with
  | cons a l ih =>
    intro h
    obtain ⟨b, hb⟩ := Option.isSome_iff_exists.mp (h a (List.mem_cons_self a l))
    obtain ⟨r, hr⟩ := ih fun x hx => h x (List.mem_cons_of_mem a hx)
    exact ⟨b :: r, by simp [optionMapList, hb, hr]⟩
  | nil => intro _; exact ⟨[], rfl⟩

theorem forall₂_mem_left {R : α → β → Prop} :
    ∀ {l : List α} {r : List β}, List.Forall₂ R l r → ∀ a ∈ l, ∃ b ∈ r, R a b := by
  intro l r h
  induction h with
  | nil => intro a ha; simp at ha
  | cons hR _ ih =>
    intro a ha
    rcases List.mem_cons.mp ha with ha | ha
    · subst ha
      exact ⟨_, List.mem_cons_self _ _, hR⟩
    · obtain ⟨b, hb, hRb⟩ := ih a ha
      exact ⟨b, List.mem_cons_of_mem _ hb, hRb⟩

/-- Claim C7: when every present include's union converges, (i) a direct
include absent from the mapping collapses `intersection` to exactly the
root's own paths (the `None` element poisons the whole reduction); (ii) a
direct include whose transitive union is empty does the same; and (iii) a
root with no direct includes gets exactly its own paths (the reduction of
an empty list is `None`, defaulted to the empty set). -/
theorem intersection_collapse :
    (∀ (r : ResolvedTags) (fuel : Nat),
      (∀ k ∈ r.raw.include_tags, ∀ t, List.lookup k r.tags = some t →
        (ResolvedTags.union_at r.tags fuel t).isSome) →
      (∃ k ∈ r.raw.include_tags, List.lookup k r.tags = none) →
      ResolvedTags.intersection r fuel = some r.raw.paths.toFinset) ∧
    (∀ (r : ResolvedTags) (fuel : Nat),
      (∀ k ∈ r.raw.include_tags, ∀ t, List.lookup k r.tags = some t →
        (ResolvedTags.union_at r.tags fuel t).isSome) →
      (∃ k ∈ r.raw.include_tags, ∃ t, List.lookup k r.tags = some t ∧
        ResolvedTags.union_at r.tags fuel t = some ∅) →
      ResolvedTags.intersection r fuel = some r.raw.paths.toFinset) ∧
    (∀ (r : ResolvedTags) (fuel : Nat), r.raw.include_tags = [] →
      ResolvedTags.intersection r fuel = some r.raw.paths.toFinset) := by
  have hsome : ∀ (r : ResolvedTags) (fuel : Nat),
      (∀ k ∈ r.raw.include_tags, ∀ t, List.lookup k r.tags = some t →
        (ResolvedTags.union_at r.tags fuel t).isSome) →
      ∃ opts, optionMapList (fun key =>
          match List.lookup key r.tags with
          | none => some none
          | some tag => (ResolvedTags.union_at r.tags fuel tag).map some)
        r.raw.include_tags = some opts := by
    intro r fuel hconv
    refine optionMapList_isSome _ _ fun k hk => ?_
    cases hl : List.lookup k r.tags with
    | none => rfl
    | some t =>
      have := hconv k hk t hl
      cases hu : ResolvedTags.union_at r.tags fuel t with
      | none => rw [hu] at this; simp at this
      | some u => simp [hu]
  refine ⟨?_, ?_, ?_⟩
  · intro r fuel hconv ⟨k, hk, hl⟩
    obtain ⟨opts, hopts⟩ := hsome r fuel hconv
    have hF := forall₂_of_optionMapList_some _ hopts
    obtain ⟨b, hb, hRb⟩ := forall₂_mem_left hF k hk
    rw [hl] at hRb
    have hbnone : b = none := by simpa using hRb.symm
    subst hbnone
    unfold ResolvedTags.intersection
    rw [hopts]
    simp only [Option.map_some', Option.some_inj]
    rw [treeReduce_eq_reduceL fallible_intersection fallible_intersection_assoc,
      reduceL_fallible_none_mem hb]
    simp
  · intro r fuel hconv ⟨k, hk, t, hl, hu⟩
    obtain ⟨opts, hopts⟩ := hsome r fuel hconv
    have hF := forall₂_of_optionMapList_some _ hopts
    obtain ⟨b, hb, hRb⟩ := forall₂_mem_left hF k hk
    rw [hl] at hRb
    have hbe : b = some ∅ := by
      simpa [hu] using hRb.symm
    subst hbe
    unfold ResolvedTags.intersection
    rw [hopts]
    simp only [Option.map_some', Option.some_inj]
    rw [treeReduce_eq_reduceL fallible_intersection fallible_intersection_assoc]
    rw [reduceL_fallible_empty_mem hb]
    simp
  · intro r fuel h
    unfold ResolvedTags.intersection
    rw [h]
    simp [optionMapList, treeReduce, treeReduceFuel]

theorem intersection_collapse_witness :
    ((∀ k ∈ (⟨RawTag.query ["nope"], []⟩ : ResolvedTags).raw.include_tags,
        ∀ t, List.lookup k (⟨RawTag.query ["nope"], []⟩ : ResolvedTags).tags = some t →
        (ResolvedTags.union_at (⟨RawTag.query ["nope"], []⟩ : ResolvedTags).tags 5 t).isSome) ∧
      (∃ k ∈ (⟨RawTag.query ["nope"], []⟩ : ResolvedTags).raw.include_tags,
        List.lookup k (⟨RawTag.query ["nope"], []⟩ : ResolvedTags).tags = none)) ∧
    ResolvedTags.intersection (⟨RawTag.query ["nope"], []⟩ : ResolvedTags) 5 =
      some (⟨RawTag.query ["nope"], []⟩ : ResolvedTags).raw.paths.toFinset := by
  have h1 : ∀ k ∈ (⟨RawTag.query ["nope"], []⟩ : ResolvedTags).raw.include_tags,
      ∀ t, List.lookup k (⟨RawTag.query ["nope"], []⟩ : ResolvedTags).tags = some t →
      (ResolvedTags.union_at (⟨RawTag.query ["nope"], []⟩ : ResolvedTags).tags 5 t).isSome := by
    intro k _ t ht
    simp [List.lookup] at ht
  have h2 : ∃ k ∈ (⟨RawTag.query ["nope"], []⟩ : ResolvedTags).raw.include_tags,
      List.lookup k (⟨RawTag.query ["nope"], []⟩ : ResolvedTags).tags = none :=
    ⟨"nope", by decide, rfl⟩
  exact ⟨⟨h1, h2⟩, intersection_collapse.1 _ 5 h1 h2⟩

/-! ### `intersection` is invariant under include-order permutation
(claim C9) -/

/-- Claim C9: permuting the iteration order of the root's `include_tags`
does not change `intersection`'s result, and the tree reduction itself is
invariant under any permutation of the per-include union sets it
combines. -/
theorem intersection_perm_invariant :
    (∀ (r : ResolvedTags) (fuel : Nat) (l' : List TagName),
      r.raw.include_tags.Perm l' →
      ResolvedTags.intersection ⟨⟨l', r.raw.inherited_tags, r.raw.paths⟩, r.tags⟩ fuel =
        ResolvedTags.intersection r fuel) ∧
    (∀ (opts opts' : List (Option (Finset FsPath))), opts.Perm opts' →
      treeReduce fallible_intersection opts = treeReduce fallible_intersection opts') := by
  constructor
  · intro r fuel l' hperm
    unfold ResolvedTags.intersection
    dsimp only
    cases h : optionMapList (fun key =>
        match List.lookup key r.tags with
        | none => some none
        | some tag => (ResolvedTags.union_at r.tags fuel tag).map some)
        r.raw.include_tags with
    | none =>
      cases h' : optionMapList (fun key =>
          match List.lookup key r.tags with
          | none => some none
          | some tag => (ResolvedTags.union_at r.tags fuel tag).map some) l' with
      | none => rfl
      | some opts' =>
        obtain ⟨r₁, hr₁, _⟩ := optionMapList_perm _ hperm.symm h'
        rw [h] at hr₁
        cases hr₁
    | some opts =>
      obtain ⟨opts', h', hpo⟩ := optionMapList_perm _ hperm h
      rw [h']
      simp only [Option.map_some', Option.some_inj]
      rw [treeReduce_perm_fallible hpo]
  · intro opts opts' p
    exact treeReduce_perm_fallible p

theorem intersection_perm_invariant_witness :
    scenarioResolved.raw.include_tags.Perm ["urgent", "work"] ∧
    ResolvedTags.intersection
        ⟨⟨["urgent", "work"], scenarioResolved.raw.inherited_tags,
          scenarioResolved.raw.paths⟩, scenarioResolved.tags⟩ 9 =
      ResolvedTags.intersection scenarioResolved 9 :=
  ⟨by decide, intersection_perm_invariant.1 scenarioResolved 9 ["urgent", "work"] (by decide)⟩

/-! ### `union` collects exactly the reachable paths (claim C6) -/

theorem incReach_mono {tags : TagMap} {ks ks' : List TagName} {k : TagName}
    (hsub : ∀ x ∈ ks, x ∈ ks') (h : IncReach tags ks k) : IncReach tags ks' k := by
  induction h with
  | base hk => exact .base (hsub _ hk)
  | step _ hl hk ih => exact .step ih hl hk

theorem incReach_lift {tags : TagMap} {key : TagName} {t : RawTag} {ks : List TagName}
    {k : TagName} (hl : List.lookup key tags = some t)
    (h : IncReach tags t.include_tags k) : IncReach tags (key :: ks) k := by
  induction h with
  | base hk => exact .step (.base (List.mem_cons_self key ks)) hl hk
  | step _ hl' hk' ih => exact .step ih hl' hk'

theorem unionKeys_sound (tags : TagMap) :
    ∀ (n : Nat) (ks : List TagName) (s : Finset FsPath),
      unionKeysFuel tags n ks = some s →
      ∀ p ∈ s, ∃ k t, IncReach tags ks k ∧ List.lookup k tags = some t ∧
        p ∈ t.paths := by
  intro n
  induction n with
  | zero =>
    intro ks s h p hp
    cases ks with
    | nil =>
      simp only [unionKeysFuel, Option.some_inj] at h
      subst h
      simp at hp
    | cons key keys => simp [unionKeysFuel] at h
  | succ n ih =>
    intro ks s h p hp
    cases ks with
    | nil =>
      simp only [unionKeysFuel, Option.some_inj] at h
      subst h
      simp at hp
    | cons key keys =>
      simp only [unionKeysFuel] at h
      cases hl : List.lookup key tags with
      | none =>
        rw [hl] at h
        obtain ⟨k, t, hr, hlk, hpk⟩ := ih keys s h p hp
        exact ⟨k, t, incReach_mono (fun x hx => List.mem_cons_of_mem _ hx) hr, hlk, hpk⟩
      | some tag =>
        rw [hl] at h
        have h' : (match unionKeysFuel tags n tag.include_tags,
              unionKeysFuel tags n keys with
            | some s₁, some s₂ => some ((s₁ ∪ tag.paths.toFinset) ∪ s₂)
            | _, _ => none) = some s := h
        cases h1 : unionKeysFuel tags n tag.include_tags with
        | none => rw [h1] at h'; simp at h'
        | some s₁ =>
          cases h2 : unionKeysFuel tags n keys with
          | none => rw [h1, h2] at h'; simp at h'
          | some s₂ =>
            rw [h1, h2] at h'
            simp only [Option.some_inj] at h'
            subst h'
            rcases Finset.mem_union.mp hp with hp' | hp'
            · rcases Finset.mem_union.mp hp' with hp'' | hp''
              · obtain ⟨k, t, hr, hlk, hpk⟩ := ih tag.include_tags s₁ h1 p hp''
                exact ⟨k, t, incReach_lift hl hr, hlk, hpk⟩
              · exact ⟨key, tag, .base (List.mem_cons_self key keys), hl,
                  List.mem_toFinset.mp hp''⟩
            · obtain ⟨k, t, hr, hlk, hpk⟩ := ih keys s₂ h2 p hp'
              exact ⟨k, t, incReach_mono (fun x hx => List.mem_cons_of_mem _ hx) hr, hlk, hpk⟩

theorem unionKeys_sub (tags : TagMap) :
    ∀ (n : Nat) (ks : List TagName) (s : Finset FsPath),
      unionKeysFuel tags n ks = some s →
      ∀ k ∈ ks, ∀ t, List.lookup k tags = some t →
        t.paths.toFinset ⊆ s ∧
        ∃ m s', unionKeysFuel tags m t.include_tags = some s' ∧ s' ⊆ s := by
  intro n
  induction n with
  | zero =>
    intro ks s h k hk t hlk
    cases ks with
    | nil => simp at hk
    | cons key keys => simp [unionKeysFuel] at h
  | succ n ih =>
    intro ks s h k hk t hlk
    cases ks with
    | nil => simp at hk
    | cons key keys =>
      simp only [unionKeysFuel] at h
      cases hl : List.lookup key tags with
      | none =>
        rw [hl] at h
        rcases List.mem_cons.mp hk with hk' | hk'
        · subst hk'
          rw [hlk] at hl
          cases hl
        · exact ih keys s h k hk' t hlk
      | some tag =>
        rw [hl] at h
        have h' : (match unionKeysFuel tags n tag.include_tags,
              unionKeysFuel tags n keys with
            | some s₁, some s₂ => some ((s₁ ∪ tag.paths.toFinset) ∪ s₂)
            | _, _ => none) = some s := h
        cases h1 : unionKeysFuel tags n tag.include_tags with
        | none => rw [h1] at h'; simp at h'
        | some s₁ =>
          cases h2 : unionKeysFuel tags n keys with
          | none => rw [h1, h2] at h'; simp at h'
          | some s₂ =>
            rw [h1, h2] at h'
            simp only [Option.some_inj] at h'
            subst h'
            rcases List.mem_cons.mp hk with hk' | hk'
            · subst hk'
              rw [hlk] at hl
              injection hl with hl
              subst hl
              constructor
              · exact fun x hx => Finset.mem_union_left _ (Finset.mem_union_right _ hx)
              · exact ⟨n, s₁, h1,
                  fun x hx => Finset.mem_union_left _ (Finset.mem_union_left _ hx)⟩
            · obtain ⟨hsub, m, s', hs', hsub'⟩ := ih keys s₂ h2 k hk' t hlk
              exact ⟨fun x hx => Finset.mem_union_right _ (hsub hx),
                m, s', hs', fun x hx => Finset.mem_union_right _ (hsub' hx)⟩

theorem unionKeys_complete (tags : TagMap) {n : Nat} {ks : List TagName}
    {s : Finset FsPath} (h : unionKeysFuel tags n ks = some s) :
    ∀ k, IncReach tags ks k → ∀ t, List.lookup k tags = some t →
      t.paths.toFinset ⊆ s ∧
      ∃ m s', unionKeysFuel tags m t.include_tags = some s' ∧ s' ⊆ s := by
  intro k hreach
  induction hreach with
  | base hk => exact fun t hlk => unionKeys_sub tags n ks s h _ hk t hlk
  | step hr hl hk ih =>
    intro t hlk
    obtain ⟨_, m, s', hs', hsub⟩ := ih _ hl
    obtain ⟨hp, m', s'', hs'', hsub'⟩ := unionKeys_sub tags m _ s' hs' _ hk t hlk
    exact ⟨fun x hx => hsub (hp hx), m', s'', hs'', fun x hx => hsub (hsub' hx)⟩

/-- Claim C6: whenever `union` converges it returns exactly the root's own
paths together with the paths of every tag reachable from the root's
`include_tags` through `include_tags` edges of records present in the
mapping (transitive, set semantics, names without a record contributing
nothing); and a root with no `include_tags` gets exactly its own paths,
for every fuel. -/
theorem union_matches_spec :
    (∀ (r : ResolvedTags) (fuel : Nat) (s : Finset FsPath),
      ResolvedTags.union r fuel = some s →
      ∀ p, p ∈ s ↔ p ∈ r.raw.paths ∨ ∃ k t,
        IncReach r.tags r.raw.include_tags k ∧ List.lookup k r.tags = some t ∧
        p ∈ t.paths) ∧
    (∀ (r : ResolvedTags) (fuel : Nat), r.raw.include_tags = [] →
      ResolvedTags.union r fuel = some r.raw.paths.toFinset) := by
  constructor
  · intro r fuel s h p
    unfold ResolvedTags.union ResolvedTags.union_at at h
    cases h0 : unionKeysFuel r.tags fuel r.raw.include_tags with
    | none => rw [h0] at h; simp at h
    | some s₀ =>
      rw [h0] at h
      simp only [Option.map_some', Option.some_inj] at h
      subst h
      constructor
      · intro hp
        rcases Finset.mem_union.mp hp with hp' | hp'
        · obtain ⟨k, t, hr, hlk, hpk⟩ := unionKeys_sound r.tags fuel _ s₀ h0 p hp'
          exact Or.inr ⟨k, t, hr, hlk, hpk⟩
        · exact Or.inl (List.mem_toFinset.mp hp')
      · rintro (hp | ⟨k, t, hr, hlk, hpk⟩)
        · exact Finset.mem_union_right _ (List.mem_toFinset.mpr hp)
        · obtain ⟨hsub, _⟩ := unionKeys_complete r.tags h0 k hr t hlk
          exact Finset.mem_union_left _ (hsub (List.mem_toFinset.mpr hpk))
  · intro r fuel h
    unfold ResolvedTags.union ResolvedTags.union_at
    rw [h]
    cases fuel <;> simp [unionKeysFuel]

theorem union_matches_spec_witness :
    ResolvedTags.union scenarioResolved 9 = some {"/a", "/b", "/c"} ∧
    ("/a" ∈ ({"/a", "/b", "/c"} : Finset FsPath) ↔
      "/a" ∈ scenarioResolved.raw.paths ∨ ∃ k t,
        IncReach scenarioResolved.tags scenarioResolved.raw.include_tags k ∧
        List.lookup k scenarioResolved.tags = some t ∧ "/a" ∈ t.paths) :=
  ⟨by decide, union_matches_spec.1 scenarioResolved 9 _ (by decide) "/a"⟩

/-! ### `all_tags` walks the inherited closure of the includes (claim C8) -/

theorem inhReach_mono {raws : TagMap} {ks ks' : List TagName} {k : TagName}
    (hsub : ∀ x ∈ ks, x ∈ ks') (h : InhReach raws ks k) : InhReach raws ks' k := by
  induction h with
  | base hk => exact .base (hsub _ hk)
  | step _ hl hk ih => exact .step ih hl hk

theorem inhReach_lift {raws : TagMap} {key : TagName} {t : RawTag} {ks : List TagName}
    {k : TagName} (hl : List.lookup key raws = some t)
    (h : InhReach raws t.inherited_tags k) : InhReach raws (key :: ks) k := by
  induction h with
  | base hk => exact .step (.base (List.mem_cons_self key ks)) hl hk
  | step _ hl' hk' ih => exact .step ih hl' hk'

theorem walk_grow (raws : TagMap) :
    ∀ (n : Nat) (s₀ : List TagName) (pending : List TagName)
      (s : List TagName) (tr : List TagName),
      walkFuel raws n s₀ pending = some (s, tr) →
      (∀ x ∈ s₀, x ∈ s) ∧ ∀ x ∈ pending, x ∈ s := by
  intro n
  induction n with
  | zero =>
    intro s₀ pending s tr h
    cases pending with
    | nil =>
      simp only [walkFuel, Option.some_inj, Prod.mk.injEq] at h
      obtain ⟨h1, _⟩ := h
      subst h1
      exact ⟨fun x hx => hx, by simp⟩
    | cons t ts => simp [walkFuel] at h
  | succ n ih =>
    intro s₀ pending s tr h
    cases pending with
    | nil =>
      simp only [walkFuel, Option.some_inj, Prod.mk.injEq] at h
      obtain ⟨h1, _⟩ := h
      subst h1
      exact ⟨fun x hx => hx, by simp⟩
    | cons t ts =>
      simp only [walkFuel] at h
      split at h
      · rename_i hts
        obtain ⟨hsub, hpend⟩ := ih s₀ ts _ _ h
        refine ⟨hsub, fun x hx => ?_⟩
        rcases List.mem_cons.mp hx with hx' | hx'
        · subst hx'; exact hsub _ hts
        · exact hpend x hx'
      · rename_i hts
        split at h
        · rename_i heq
          split at h
          · rename_i s₂ tr₂ heq₂
            simp only [Option.some_inj, Prod.mk.injEq] at h
            obtain ⟨h1, _⟩ := h
            subst h1
            obtain ⟨hsub, hpend⟩ := ih _ ts _ _ heq₂
            refine ⟨fun x hx => hsub _ (List.mem_cons_of_mem _ hx), fun x hx => ?_⟩
            rcases List.mem_cons.mp hx with hx' | hx'
            · subst hx'; exact hsub _ (List.mem_cons_self _ _)
            · exact hpend x hx'
          · exact absurd h (by simp)
        · rename_i raw heq
          split at h
          · rename_i s₁ tr₁ heq₂
            split at h
            · rename_i s₂ tr₂ heq₃
              simp only [Option.some_inj, Prod.mk.injEq] at h
              obtain ⟨h1, _⟩ := h
              subst h1
              obtain ⟨hsub₁, _⟩ := ih _ _ _ _ heq₂
              obtain ⟨hsub₂, hpend₂⟩ := ih s₁ ts _ _ heq₃
              refine ⟨fun x hx =>
                hsub₂ _ (hsub₁ _ (List.mem_cons_of_mem _ hx)), fun x hx => ?_⟩
              rcases List.mem_cons.mp hx with hx' | hx'
              · subst hx'; exact hsub₂ _ (hsub₁ _ (List.mem_cons_self _ _))
              · exact hpend₂ x hx'
            · exact absurd h (by simp)
          · exact absurd h (by simp)

theorem walk_sound (raws : TagMap) :
    ∀ (n : Nat) (s₀ : List TagName) (pending : List TagName)
      (s : List TagName) (tr : List TagName),
      walkFuel raws n s₀ pending = some (s, tr) →
      ∀ x ∈ s, x ∈ s₀ ∨ InhReach raws pending x := by
  intro n
  induction n with
  | zero =>
    intro s₀ pending s tr h x hx
    cases pending with
    | nil =>
      simp only [walkFuel, Option.some_inj, Prod.mk.injEq] at h
      obtain ⟨h1, _⟩ := h
      subst h1
      exact Or.inl hx
    | cons t ts => simp [walkFuel] at h
  | succ n ih =>
    intro s₀ pending s tr h x hx
    cases pending with
    | nil =>
      simp only [walkFuel, Option.some_inj, Prod.mk.injEq] at h
      obtain ⟨h1, _⟩ := h
      subst h1
      exact Or.inl hx
    | cons t ts =>
      simp only [walkFuel] at h
      split at h
      · rcases ih s₀ ts _ _ h x hx with h0 | h0
        · exact Or.inl h0
        · exact Or.inr (inhReach_mono (fun y hy => List.mem_cons_of_mem _ hy) h0)
      · rename_i hts
        split at h
        · rename_i heq
          split at h
          · rename_i s₂ tr₂ heq₂
            simp only [Option.some_inj, Prod.mk.injEq] at h
            obtain ⟨h1, _⟩ := h
            subst h1
            rcases ih _ ts _ _ heq₂ x hx with h0 | h0
            · rcases List.mem_cons.mp h0 with h0' | h0'
              · exact Or.inr (.base (by simp [h0']))
              · exact Or.inl h0'
            · exact Or.inr (inhReach_mono (fun y hy => List.mem_cons_of_mem _ hy) h0)
          · exact absurd h (by simp)
        · rename_i raw heq
          split at h
          · rename_i s₁ tr₁ heq₂
            split at h
            · rename_i s₂ tr₂ heq₃
              simp only [Option.some_inj, Prod.mk.injEq] at h
              obtain ⟨h1, _⟩ := h
              subst h1
              rcases ih s₁ ts _ _ heq₃ x hx with h0 | h0
              · rcases ih _ _ _ _ heq₂ x h0 with h1 | h1
                · rcases List.mem_cons.mp h1 with h1' | h1'
                  · exact Or.inr (.base (by simp [h1']))
                  · exact Or.inl h1'
                · exact Or.inr (inhReach_lift heq h1)
              · exact Or.inr (inhReach_mono (fun y hy => List.mem_cons_of_mem _ hy) h0)
            · exact absurd h (by simp)
          · exact absurd h (by simp)

theorem walk_expanded (raws : TagMap) :
    ∀ (n : Nat) (s₀ : List TagName) (pending : List TagName)
      (s : List TagName) (tr : List TagName),
      walkFuel raws n s₀ pending = some (s, tr) →
      ∀ x ∈ s, x ∈ s₀ ∨
        ∀ t, List.lookup x raws = some t → ∀ y ∈ t.inherited_tags, y ∈ s := by
  intro n
  induction n with
  | zero =>
    intro s₀ pending s tr h x hx
    cases pending with
    | nil =>
      simp only [walkFuel, Option.some_inj, Prod.mk.injEq] at h
      obtain ⟨h1, _⟩ := h
      subst h1
      exact Or.inl hx
    | cons t ts => simp [walkFuel] at h
  | succ n ih =>
    intro s₀ pending s tr h x hx
    cases pending with
    | nil =>
      simp only [walkFuel, Option.some_inj, Prod.mk.injEq] at h
      obtain ⟨h1, _⟩ := h
      subst h1
      exact Or.inl hx
    | cons t ts =>
      simp only [walkFuel] at h
      split at h
      · exact ih s₀ ts _ _ h x hx
      · rename_i hts
        split at h
        · rename_i heq
          split at h
          · rename_i s₂ tr₂ heq₂
            simp only [Option.some_inj, Prod.mk.injEq] at h
            obtain ⟨h1, _⟩ := h
            subst h1
            rcases ih _ ts _ _ heq₂ x hx with h0 | h0
            · rcases List.mem_cons.mp h0 with h0' | h0'
              · subst h0'
                refine Or.inr fun t' hl' => ?_
                rw [heq] at hl'
                cases hl'
              · exact Or.inl h0'
            · exact Or.inr h0
          · exact absurd h (by simp)
        · rename_i raw heq
          split at h
          · rename_i s₁ tr₁ heq₂
            split at h
            · rename_i s₂ tr₂ heq₃
              simp only [Option.some_inj, Prod.mk.injEq] at h
              obtain ⟨h1, _⟩ := h
              subst h1
              have hsub₂ := (walk_grow raws n s₁ ts _ _ heq₃).1
              rcases ih s₁ ts _ _ heq₃ x hx with h0 | h0
              · rcases ih _ _ _ _ heq₂ x h0 with h1 | h1
                · rcases List.mem_cons.mp h1 with h1' | h1'
                  · subst h1'
                    refine Or.inr fun t' hl' => ?_
                    rw [heq] at hl'
                    injection hl' with hl'
                    subst hl'
                    intro y hy
                    exact hsub₂ _ ((walk_grow raws n _ _ _ _ heq₂).2 y hy)
                  · exact Or.inl h1'
                · exact Or.inr fun t' hl' y hy => hsub₂ _ (h1 t' hl' y hy)
              · exact Or.inr h0
            · exact absurd h (by simp)
          · exact absurd h (by simp)

theorem walk_complete (raws : TagMap) {n : Nat} {pending : List TagName}
    {s : List TagName} {tr : List TagName}
    (h : walkFuel raws n [] pending = some (s, tr)) :
    ∀ x, InhReach raws pending x → x ∈ s := by
  intro x hx
  induction hx with
  | base hk => exact (walk_grow raws n [] pending s tr h).2 _ hk
  | step hr hl hk ih =>
    rcases walk_expanded raws n [] pending s tr h _ ih with h0 | hexp
    · simp at h0
    · exact hexp _ hl _ hk

theorem walk_nodup (raws : TagMap) :
    ∀ (n : Nat) (s₀ : List TagName) (pending : List TagName)
      (s : List TagName) (tr : List TagName),
      walkFuel raws n s₀ pending = some (s, tr) →
      tr.Nodup ∧ ∀ x ∈ tr, x ∈ s ∧ x ∉ s₀ := by
  intro n
  induction n with
  | zero =>
    intro s₀ pending s tr h
    cases pending with
    | nil =>
      simp only [walkFuel, Option.some_inj, Prod.mk.injEq] at h
      obtain ⟨_, h2⟩ := h
      subst h2
      exact ⟨List.nodup_nil, by simp⟩
    | cons t ts => simp [walkFuel] at h
  | succ n ih =>
    intro s₀ pending s tr h
    cases pending with
    | nil =>
      simp only [walkFuel, Option.some_inj, Prod.mk.injEq] at h
      obtain ⟨_, h2⟩ := h
      subst h2
      exact ⟨List.nodup_nil, by simp⟩
    | cons t ts =>
      simp only [walkFuel] at h
      split at h
      · exact ih s₀ ts _ _ h
      · rename_i hts
        split at h
        · rename_i heq
          split at h
          · rename_i s₂ tr₂ heq₂
            simp only [Option.some_inj, Prod.mk.injEq] at h
            obtain ⟨h1, h2⟩ := h
            subst h1
            subst h2
            obtain ⟨hnd, hent⟩ := ih _ ts _ _ heq₂
            have hgrow := walk_grow raws n _ ts _ _ heq₂
            refine ⟨List.Nodup.cons (fun hmem => ?_) hnd, fun x hx => ?_⟩
            · exact (hent t hmem).2 (List.mem_cons_self _ _)
            · rcases List.mem_cons.mp hx with hx' | hx'
              · subst hx'
                exact ⟨hgrow.1 _ (List.mem_cons_self _ _), hts⟩
              · exact ⟨(hent x hx').1,
                  fun hmem => (hent x hx').2 (List.mem_cons_of_mem _ hmem)⟩
          · exact absurd h (by simp)
        · rename_i raw heq
          split at h
          · rename_i s₁ tr₁ heq₂
            split at h
            · rename_i s₂ tr₂ heq₃
              simp only [Option.some_inj, Prod.mk.injEq] at h
              obtain ⟨h1, h2⟩ := h
              subst h1
              subst h2
              obtain ⟨hnd₁, hent₁⟩ := ih _ _ _ _ heq₂
              obtain ⟨hnd₂, hent₂⟩ := ih s₁ ts _ _ heq₃
              have hgrow₁ := walk_grow raws n _ _ _ _ heq₂
              have hgrow₂ := walk_grow raws n s₁ ts _ _ heq₃
              have htins : t ∈ s₁ := hgrow₁.1 _ (List.mem_cons_self _ _)
              constructor
              · rw [List.nodup_append]
                refine ⟨List.Nodup.cons (fun hmem => ?_) hnd₁, hnd₂, ?_⟩
                · exact (hent₁ t hmem).2 (List.mem_cons_self _ _)
                · intro a ha hb
                  have ha₁ : a ∈ s₁ := by
                    rcases List.mem_cons.mp ha with ha' | ha'
                    · subst ha'; exact htins
                    · exact (hent₁ a ha').1
                  exact (hent₂ a hb).2 ha₁
              · intro x hx
                rcases List.mem_append.mp hx with hx' | hx'
                · rcases List.mem_cons.mp hx' with hx'' | hx''
                  · subst hx''
                    exact ⟨hgrow₂.1 _ htins, hts⟩
                  · exact ⟨hgrow₂.1 _ (hent₁ x hx'').1, fun hmem =>
                      (hent₁ x hx'').2 (List.mem_cons_of_mem _ hmem)⟩
                · exact ⟨(hent₂ x hx').1, fun hmem =>
                    (hent₂ x hx').2 (hgrow₁.1 _ (List.mem_cons_of_mem _ hmem))⟩
            · exact absurd h (by simp)
          · exact absurd h (by simp)

/-- Claim C8: when `all_tags` converges its result is exactly the root's
`include_tags` together with the transitive `inherited_tags` closure
walked from those included tags' records (the root's own `inherited_tags`
are not walked, and traversal stops at names with no resolved record);
each name is visited (inserted and expanded) at most once; and the spec's
scenario — `parent` inheriting `child` — resolves and yields
`all_tags() = {parent, child}`, even when the root carries its own
`inherited_tags` entry with a resolvable record. -/
theorem all_tags_matches_spec :
    (∀ (r : ResolvedTags) (fuel : Nat) (s : Finset TagName),
      ResolvedTags.all_tags r fuel = some s →
      ∀ x, x ∈ s ↔ InhReach r.tags r.raw.include_tags x) ∧
    (∀ (raws : TagMap) (fuel : Nat) (s₀ : List TagName)
        (pending : List TagName) (s : List TagName) (tr : List TagName),
      walkFuel raws fuel s₀ pending = some (s, tr) → tr.Nodup) ∧
    (tryFromFuel inhStore 9 (RawTag.query ["parent"]) = TryFromResult.ok inhResolved ∧
      ResolvedTags.all_tags inhResolved 9 = some {"parent", "child"} ∧
      ResolvedTags.all_tags
          ⟨⟨["parent"], ["ghost"], []⟩,
            ("ghost", ⟨[], ["gchild"], []⟩) :: inhResolved.tags⟩ 9 =
        some {"parent", "child"}) := by
  refine ⟨?_, ?_, by decide, ?_, ?_⟩
  · intro r fuel s h x
    unfold ResolvedTags.all_tags at h
    cases hw : walkFuel r.tags fuel [] r.raw.include_tags with
    | none => rw [hw] at h; simp at h
    | some pair =>
      obtain ⟨s', tr⟩ := pair
      rw [hw] at h
      simp only [Option.map_some', Option.some_inj] at h
      subst h
      rw [List.mem_toFinset]
      constructor
      · intro hx
        rcases walk_sound r.tags fuel [] _ s' tr hw x hx with h0 | h0
        · simp at h0
        · exact h0
      · exact walk_complete r.tags hw x
  · intro raws fuel s₀ pending s tr h
    exact (walk_nodup raws fuel s₀ pending s tr h).1
  · have hw : walkFuel inhResolved.tags 9 [] inhResolved.raw.include_tags =
        some (["child", "parent"], ["parent", "child"]) := by decide
    unfold ResolvedTags.all_tags
    rw [hw]
    simp only [Option.map_some', Option.some_inj]
    decide
  · have hw : walkFuel
        (("ghost", (⟨[], ["gchild"], []⟩ : RawTag)) :: inhResolved.tags) 9 []
        ["parent"] = some (["child", "parent"], ["parent", "child"]) := by decide
    unfold ResolvedTags.all_tags
    rw [hw]
    simp only [Option.map_some', Option.some_inj]
    decide

theorem all_tags_matches_spec_witness :
    ResolvedTags.all_tags inhResolved 9 = some {"parent", "child"} ∧
    ("child" ∈ ({"parent", "child"} : Finset TagName) ↔
      InhReach inhResolved.tags inhResolved.raw.include_tags "child") := by
  have h : ResolvedTags.all_tags inhResolved 9 = some {"parent", "child"} := by
    have hw : walkFuel inhResolved.tags 9 [] inhResolved.raw.include_tags =
        some (["child", "parent"], ["parent", "child"]) := by decide
    unfold ResolvedTags.all_tags
    rw [hw]
    simp only [Option.map_some', Option.some_inj]
    decide
  exact ⟨h, all_tags_matches_spec.1 inhResolved 9 _ h "child"⟩

/-! ### The resolver never consults the accumulating mapping (claim C3) -/

/-- Erase the mapping component of a resolver outcome, leaving the parts
that could in principle depend on it. -/
def RRes.strip : RRes → RRes
  | .ok path _ loads => .ok path [] loads
  | e => e

/-- The resolver loop with the mapping removed: same store, same path
discipline, same loads — the reference for mapping-independence. -/
def stepFuelNoMap (store : Store) :
    Nat → List TagName → List TagName → List TagName → RRes
  | _, path, [], loads => .ok path [] loads
  | 0, _, _ :: _, _ => .fuelOut
  | n + 1, path, key :: keys, loads =>
    if key ∈ path then
      .cyclic (path ++ [key])
    else
      let path₁ := path ++ [key]
      let popped := path₁.getLast?
      let path₂ := path₁.dropLast
      let loads₁ := loads ++ [key]
      match List.lookup key store with
      | none => stepFuelNoMap store n path₂ keys loads₁
      | some tag =>
        match stepFuelNoMap store n path₂ (keysOf tag) loads₁ with
        | .ok path₃ _ loads₂ =>
          match popped with
          | none => .ubPop
          | some _ => stepFuelNoMap store n path₃ keys loads₂
        | e => e

theorem stepFuel_strip_eq_noMap (store : Store) :
    ∀ (fuel : Nat) (path : List TagName) (tags : TagMap)
      (keys loads : List TagName),
      (stepFuel store fuel path tags keys loads).strip =
        stepFuelNoMap store fuel path keys loads := by
  intro fuel
  induction fuel with
  | zero =>
    intro path tags keys loads
    cases keys <;> rfl
  | succ n ih =>
    intro path tags keys loads
    cases keys with
    | nil => rfl
    | cons key keys =>
      simp only [stepFuel, stepFuelNoMap, List.dropLast_concat, List.getLast?_concat]
      by_cases hmem : key ∈ path
      · simp only [if_pos hmem]
        rfl
      · simp only [if_neg hmem]
        cases hstore : List.lookup key store with
        | none => exact ih _ _ _ _
        | some tag =>
          dsimp only
          have hdesc := ih path tags (keysOf tag) (loads ++ [key])
          cases e : stepFuel store n path tags (keysOf tag) (loads ++ [key]) with
          | ok p₃ t₃ l₂ =>
            rw [e] at hdesc
            rw [← hdesc]
            simp only [RRes.strip]
            exact ih _ _ _ _
          | cyclic c =>
            rw [e] at hdesc
            rw [← hdesc]
            rfl
          | fuelOut =>
            rw [e] at hdesc
            rw [← hdesc]
            rfl
          | ubPop =>
            rw [e] at hdesc
            rw [← hdesc]
            rfl

/-- Claim C3 (amended): the accumulating mapping is never consulted
during resolution — the resolution path, the error/success outcome and
the trace of store loads are a function of the store and the key lists
alone, identical for any two mapping states.  (Consequently, a name whose
subtree has already been resolved and inserted is loaded and re-descended
again when re-encountered under a sibling branch; see the diamond
counterexample.) -/
theorem resolver_ignores_mapping :
    (∀ (store : Store) (fuel : Nat) (path : List TagName) (tags : TagMap)
        (keys loads : List TagName),
      (stepFuel store fuel path tags keys loads).strip =
        stepFuelNoMap store fuel path keys loads) ∧
    (∀ (store : Store) (fuel : Nat) (path : List TagName)
        (tags₁ tags₂ : TagMap) (keys loads : List TagName),
      (stepFuel store fuel path tags₁ keys loads).strip =
        (stepFuel store fuel path tags₂ keys loads).strip) := by
  refine ⟨stepFuel_strip_eq_noMap, fun store fuel path tags₁ tags₂ keys loads => ?_⟩
  rw [stepFuel_strip_eq_noMap, stepFuel_strip_eq_noMap]

/-- Claim C3 counterexample: in the diamond store (`a` and `b` both
include `d`), resolving the query `{a, b}` loads `d` twice — the second
encounter of `d` re-descends even though `(d, record)` was already
inserted into the mapping after the first branch (the mapping even holds
two `d` entries at the end) — refuting "the mapping is consulted before
recursing". -/
theorem diamond_double_descend_counterexample :
    stepFuel diamondStore 9 [] [] (keysOf (RawTag.query ["a", "b"])) [] =
      RRes.ok []
        [("b", ⟨["d"], [], []⟩), ("d", ⟨[], [], ["/p"]⟩),
         ("a", ⟨["d"], [], []⟩), ("d", ⟨[], [], ["/p"]⟩)]
        ["a", "d", "b", "d"] ∧
    List.count "d" ["a", "d", "b", "d"] = 2 :=
  ⟨by decide, by decide⟩

/-! ### Acyclic stores resolve; what the mapping contains (claim C2) -/

theorem keyReach_nil (store : Store) (k : TagName) : ¬ KeyReach store [] k := by
  intro h
  induction h with
  | base hk => simp at hk
  | step _ _ _ ih => exact ih

theorem keyReach_cons_elim {store : Store} {key : TagName} {keys : List TagName}
    {k' : TagName} (h : KeyReach store (key :: keys) k') :
    KeyReach store [key] k' ∨ KeyReach store keys k' := by
  induction h with
  | base hk =>
    rcases List.mem_cons.mp hk with h0 | h0
    · exact Or.inl (.base (by simp [h0]))
    · exact Or.inr (.base h0)
  | step _ hl hk ih =>
    rcases ih with h0 | h0
    · exact Or.inl (.step h0 hl hk)
    · exact Or.inr (.step h0 hl hk)

theorem keyReach_single_none {store : Store} {key : TagName} {k' : TagName}
    (hnone : List.lookup key store = none) (h : KeyReach store [key] k') :
    k' = key := by
  induction h with
  | base hk => simpa using hk
  | step _ hl _ ih =>
    rw [ih] at hl
    rw [hnone] at hl
    cases hl

theorem keyReach_single_some {store : Store} {key : TagName} {tag : RawTag}
    {k' : TagName} (hsome : List.lookup key store = some tag)
    (h : KeyReach store [key] k') :
    k' = key ∨ KeyReach store (keysOf tag) k' := by
  induction h with
  | base hk => exact Or.inl (by simpa using hk)
  | step _ hl hk ih =>
    rcases ih with h0 | h0
    · rw [h0] at hl
      rw [hsome] at hl
      injection hl with hl
      subst hl
      exact Or.inr (.base hk)
    · exact Or.inr (.step h0 hl hk)

theorem lookup_cons_eq (key : TagName) (tag : RawTag) (m : TagMap) (k : TagName) :
    List.lookup k ((key, tag) :: m) = if k = key then some tag else List.lookup k m := by
  by_cases h : k = key
  · simp [List.lookup, h]
  · have hb : (k == key) = false := beq_eq_false_iff_ne.mpr h
    simp [List.lookup, hb, h]

/-- The mapping built so far always agrees with the store. -/
def Agrees (store : Store) (tags : TagMap) : Prop :=
  ∀ k t, List.lookup k tags = some t → List.lookup k store = some t

theorem stepFuel_empty_path (store : Store) :
    ∀ (n : Nat) (tags : TagMap) (ks loads : List TagName),
      (∃ tags' loads',
        stepFuel store n [] tags ks loads = RRes.ok [] tags' loads') ∨
      stepFuel store n [] tags ks loads = RRes.fuelOut := by
  intro n
  induction n with
  | zero =>
    intro tags ks loads
    cases ks with
    | nil => exact Or.inl ⟨tags, loads, rfl⟩
    | cons key keys => exact Or.inr rfl
  | succ n ih =>
    intro tags ks loads
    cases ks with
    | nil => exact Or.inl ⟨tags, loads, rfl⟩
    | cons key keys =>
      cases hstore : List.lookup key store with
      | none =>
        have hred : stepFuel store (n + 1) [] tags (key :: keys) loads =
            stepFuel store n [] tags keys (loads ++ [key]) := by
          simp [stepFuel, hstore]
        rw [hred]
        exact ih tags keys (loads ++ [key])
      | some tag =>
        have hred : stepFuel store (n + 1) [] tags (key :: keys) loads =
            (match stepFuel store n [] tags (keysOf tag) (loads ++ [key]) with
             | RRes.ok path₃ tags₃ loads₂ =>
                 stepFuel store n path₃ ((key, tag) :: tags₃) keys loads₂
             | e => e) := by
          simp [stepFuel, hstore]
        rw [hred]
        rcases ih tags (keysOf tag) (loads ++ [key]) with ⟨t₃, l₂, he⟩ | he
        · rw [he]
          exact ih ((key, tag) :: t₃) keys l₂
        · rw [he]
          exact Or.inr rfl

theorem stepFuel_mono (store : Store) :
    ∀ (n : Nat) (path : List TagName) (tags : TagMap) (ks loads : List TagName),
      stepFuel store n path tags ks loads ≠ RRes.fuelOut →
      stepFuel store (n + 1) path tags ks loads =
        stepFuel store n path tags ks loads := by
  intro n
  induction n with
  | zero =>
    intro path tags ks loads h
    cases ks with
    | nil => rfl
    | cons key keys => exact absurd rfl h
  | succ n ih =>
    intro path tags ks loads h
    cases ks with
    | nil => rfl
    | cons key keys =>
      by_cases hmem : key ∈ path
      · have h1 : stepFuel store (n + 1 + 1) path tags (key :: keys) loads =
            RRes.cyclic (path ++ [key]) := by simp [stepFuel, hmem]
        have h2 : stepFuel store (n + 1) path tags (key :: keys) loads =
            RRes.cyclic (path ++ [key]) := by simp [stepFuel, hmem]
        rw [h1, h2]
      · cases hstore : List.lookup key store with
        | none =>
          have h1 : stepFuel store (n + 1 + 1) path tags (key :: keys) loads =
              stepFuel store (n + 1) path tags keys (loads ++ [key]) := by
            simp [stepFuel, hmem, hstore]
          have h2 : stepFuel store (n + 1) path tags (key :: keys) loads =
              stepFuel store n path tags keys (loads ++ [key]) := by
            simp [stepFuel, hmem, hstore]
          rw [h1, h2]
          rw [h2] at h
          exact ih _ _ _ _ h
        | some tag =>
          have h1 : stepFuel store (n + 1 + 1) path tags (key :: keys) loads =
              (match stepFuel store (n + 1) path tags (keysOf tag) (loads ++ [key]) with
               | RRes.ok p₃ t₃ l₂ => stepFuel store (n + 1) p₃ ((key, tag) :: t₃) keys l₂
               | e => e) := by
            simp [stepFuel, hmem, hstore]
          have h2 : stepFuel store (n + 1) path tags (key :: keys) loads =
              (match stepFuel store n path tags (keysOf tag) (loads ++ [key]) with
               | RRes.ok p₃ t₃ l₂ => stepFuel store n p₃ ((key, tag) :: t₃) keys l₂
               | e => e) := by
            simp [stepFuel, hmem, hstore]
          rw [h1, h2]
          rw [h2] at h
          cases e : stepFuel store n path tags (keysOf tag) (loads ++ [key]) with
          | fuelOut =>
            rw [e] at h
            exact absurd rfl h
          | cyclic c =>
            have hd := ih path tags (keysOf tag) (loads ++ [key]) (by rw [e]; simp)
            rw [hd, e]
          | ubPop =>
            have hd := ih path tags (keysOf tag) (loads ++ [key]) (by rw [e]; simp)
            rw [hd, e]
          | ok p₃ t₃ l₂ =>
            have hd := ih path tags (keysOf tag) (loads ++ [key]) (by rw [e]; simp)
            rw [hd, e]
            rw [e] at h
            have h' : stepFuel store n p₃ ((key, tag) :: t₃) keys l₂ ≠ RRes.fuelOut := h
            exact ih _ _ _ _ h'

theorem stepFuel_mono_le (store : Store) :
    ∀ (m n : Nat), n ≤ m →
      ∀ (path : List TagName) (tags : TagMap) (ks loads : List TagName),
        stepFuel store n path tags ks loads ≠ RRes.fuelOut →
        stepFuel store m path tags ks loads =
          stepFuel store n path tags ks loads := by
  intro m
  induction m with
  | zero =>
    intro n hn path tags ks loads _
    have : n = 0 := Nat.le_zero.mp hn
    subst this
    rfl
  | succ m ih =>
    intro n hn path tags ks loads h
    rcases Nat.lt_or_ge n (m + 1) with hlt | hge
    · have hnm : n ≤ m := Nat.lt_succ_iff.mp hlt
      have h1 := ih n hnm path tags ks loads h
      have h2 : stepFuel store m path tags ks loads ≠ RRes.fuelOut := by
        rw [h1]; exact h
      rw [stepFuel_mono store m path tags ks loads h2, h1]
    · have : n = m + 1 := Nat.le_antisymm hn hge
      subst this
      rfl

theorem stepFuel_suffices (store : Store) (rank : TagName → Nat)
    (hrank : ∀ k t, List.lookup k store = some t → ∀ k' ∈ keysOf t, ∀ t',
      List.lookup k' store = some t' → rank k' < rank k) :
    ∀ (bound : Nat) (ks : List TagName),
      (∀ k ∈ ks, ∀ t, List.lookup k store = some t → rank k < bound) →
      ∃ fuel, ∀ (tags : TagMap) (loads : List TagName),
        stepFuel store fuel [] tags ks loads ≠ RRes.fuelOut := by
  intro bound
  induction bound using Nat.strong_induction_on with
  | _ bound ihb =>
    intro ks
    induction ks with
    | nil =>
      intro _
      exact ⟨0, fun tags loads => by simp [stepFuel]⟩
    | cons key keys ihk =>
      intro hks
      obtain ⟨f₂, hf₂⟩ := ihk fun k hk => hks k (List.mem_cons_of_mem _ hk)
      cases hstore : List.lookup key store with
      | none =>
        refine ⟨f₂ + 1, fun tags loads => ?_⟩
        have hred : stepFuel store (f₂ + 1) [] tags (key :: keys) loads =
            stepFuel store f₂ [] tags keys (loads ++ [key]) := by
          simp [stepFuel, hstore]
        rw [hred]
        exact hf₂ tags _
      | some tag =>
        have hrk : rank key < bound := hks key (List.mem_cons_self _ _) tag hstore
        obtain ⟨f₁, hf₁⟩ := ihb (rank key) hrk (keysOf tag)
          fun k' hk' t' hl' => hrank key tag hstore k' hk' t' hl'
        refine ⟨max f₁ f₂ + 1, fun tags loads => ?_⟩
        have hred : stepFuel store (max f₁ f₂ + 1) [] tags (key :: keys) loads =
            (match stepFuel store (max f₁ f₂) [] tags (keysOf tag) (loads ++ [key]) with
             | RRes.ok p₃ t₃ l₂ =>
                 stepFuel store (max f₁ f₂) p₃ ((key, tag) :: t₃) keys l₂
             | e => e) := by
          simp [stepFuel, hstore]
        rw [hred]
        have hd₁ : stepFuel store (max f₁ f₂) [] tags (keysOf tag) (loads ++ [key]) =
            stepFuel store f₁ [] tags (keysOf tag) (loads ++ [key]) :=
          stepFuel_mono_le store (max f₁ f₂) f₁ (le_max_left _ _) _ _ _ _ (hf₁ tags _)
        rw [hd₁]
        rcases stepFuel_empty_path store f₁ tags (keysOf tag) (loads ++ [key]) with
          ⟨t₃, l₂, he⟩ | he
        · rw [he]
          show stepFuel store (max f₁ f₂) [] ((key, tag) :: t₃) keys l₂ ≠ RRes.fuelOut
          rw [stepFuel_mono_le store (max f₁ f₂) f₂ (le_max_right _ _) _ _ _ _ (hf₂ _ _)]
          exact hf₂ _ _
        · exact absurd he (hf₁ tags _)

theorem stepFuel_mapping (store : Store) :
    ∀ (n : Nat) (path : List TagName) (tags : TagMap) (ks loads : List TagName)
      (p' : List TagName) (tags' : TagMap) (loads' : List TagName),
      stepFuel store n path tags ks loads = RRes.ok p' tags' loads' →
      Agrees store tags →
      Agrees store tags' ∧
      (∀ k t, List.lookup k tags = some t → List.lookup k tags' = some t) ∧
      (∀ k', KeyReach store ks k' → ∀ t', List.lookup k' store = some t' →
        List.lookup k' tags' = some t') := by
  intro n
  induction n with
  | zero =>
    intro path tags ks loads p' tags' loads' h hA
    cases ks with
    | nil =>
      injection h with h1 h2 h3
      subst h2
      exact ⟨hA, fun k t hk => hk, fun k' hr => absurd hr (keyReach_nil store k')⟩
    | cons key keys => cases h
  | succ n ih =>
    intro path tags ks loads p' tags' loads' h hA
    cases ks with
    | nil =>
      injection h with h1 h2 h3
      subst h2
      exact ⟨hA, fun k t hk => hk, fun k' hr => absurd hr (keyReach_nil store k')⟩
    | cons key keys =>
      by_cases hmem : key ∈ path
      · have hred : stepFuel store (n + 1) path tags (key :: keys) loads =
            RRes.cyclic (path ++ [key]) := by simp [stepFuel, hmem]
        rw [hred] at h
        cases h
      · cases hstore : List.lookup key store with
        | none =>
          have hred : stepFuel store (n + 1) path tags (key :: keys) loads =
              stepFuel store n path tags keys (loads ++ [key]) := by
            simp [stepFuel, hmem, hstore]
          rw [hred] at h
          obtain ⟨hA', hP', hC'⟩ := ih _ _ _ _ _ _ _ h hA
          refine ⟨hA', hP', fun k' hr t' hl' => ?_⟩
          rcases keyReach_cons_elim hr with h0 | h0
          · have hk' := keyReach_single_none hstore h0
            subst hk'
            rw [hstore] at hl'
            cases hl'
          · exact hC' k' h0 t' hl'
        | some tag =>
          have hred : stepFuel store (n + 1) path tags (key :: keys) loads =
              (match stepFuel store n path tags (keysOf tag) (loads ++ [key]) with
               | RRes.ok p₃ t₃ l₂ => stepFuel store n p₃ ((key, tag) :: t₃) keys l₂
               | e => e) := by
            simp [stepFuel, hmem, hstore]
          rw [hred] at h
          cases e : stepFuel store n path tags (keysOf tag) (loads ++ [key]) with
          | ok p₃ t₃ l₂ =>
            rw [e] at h
            have h' : stepFuel store n p₃ ((key, tag) :: t₃) keys l₂ =
                RRes.ok p' tags' loads' := h
            obtain ⟨hA₃, hP₃, hC₃⟩ := ih _ _ _ _ _ _ _ e hA
            have hA₄ : Agrees store ((key, tag) :: t₃) := by
              intro k t hk
              rw [lookup_cons_eq] at hk
              by_cases hkk : k = key
              · rw [if_pos hkk] at hk
                subst hkk
                injection hk with hk
                rw [← hk]
                exact hstore
              · rw [if_neg hkk] at hk
                exact hA₃ k t hk
            obtain ⟨hA', hP', hC'⟩ := ih _ _ _ _ _ _ _ h' hA₄
            have hPc : ∀ k t, List.lookup k t₃ = some t →
                List.lookup k ((key, tag) :: t₃) = some t := by
              intro k t hk
              rw [lookup_cons_eq]
              by_cases hkk : k = key
              · subst hkk
                have hks := hA₃ k t hk
                rw [hstore] at hks
                injection hks with hks
                rw [if_pos rfl, hks]
              · rw [if_neg hkk]
                exact hk
            refine ⟨hA', fun k t hk => hP' k t (hPc k t (hP₃ k t hk)),
              fun k' hr t' hl' => ?_⟩
            rcases keyReach_cons_elim hr with h0 | h0
            · rcases keyReach_single_some hstore h0 with h1 | h1
              · rw [h1] at hl' ⊢
                rw [hstore] at hl'
                injection hl' with hl'
                subst hl'
                refine hP' key tag ?_
                rw [lookup_cons_eq, if_pos rfl]
              · exact hP' k' t' (hPc k' t' (hC₃ k' h1 t' hl'))
            · exact hC' k' h0 t' hl'
          | cyclic c =>
            rw [e] at h
            have h' : RRes.cyclic c = RRes.ok p' tags' loads' := h
            cases h'
          | fuelOut =>
            rw [e] at h
            have h' : RRes.fuelOut = RRes.ok p' tags' loads' := h
            cases h'
          | ubPop =>
            rw [e] at h
            have h' : RRes.ubPop = RRes.ok p' tags' loads' := h
            cases h'

theorem mem_le_foldr_max (rank : TagName → Nat) :
    ∀ (l : List TagName) (k : TagName), k ∈ l →
      rank k ≤ (l.map rank).foldr max 0 := by
  intro l
  induction l with
  | nil => intro k hk; simp at hk
  | cons a l ih =>
    intro k hk
    rcases List.mem_cons.mp hk with h | h
    · subst h
      simp only [List.map_cons, List.foldr_cons]
      exact le_max_left _ _
    · exact le_trans (ih k h)
        (by simp only [List.map_cons, List.foldr_cons]; exact le_max_right _ _)

/-- Store used to witness acyclic resolution: `a` includes `b`, `b` is a
leaf. -/
def chainStore : Store := [("a", ⟨["b"], [], ["/p"]⟩), ("b", ⟨[], [], ["/q"]⟩)]

/-- A rank function witnessing that `chainStore` is acyclic. -/
def chainRank : TagName → Nat := fun k => if k = "a" then 1 else 0

/-- Claim C2 (amended): for every store whose key graph is acyclic
(witnessed by a rank function decreasing along resolver key edges between
records the store holds), resolving any root succeeds with enough fuel;
in the resulting graph every name reachable from the root's keys through
store-held records that the store has a record for is present in the
mapping, bound to its store record — and conversely every binding in the
mapping agrees with the store, so names the store has no record for are
absent from the mapping rather than bound to a default empty record. -/
theorem acyclic_resolution_amended :
    ∀ (store : Store) (root : RawTag) (rank : TagName → Nat),
      (∀ k t, List.lookup k store = some t → ∀ k' ∈ keysOf t, ∀ t',
        List.lookup k' store = some t' → rank k' < rank k) →
      ∃ fuel r, tryFromFuel store fuel root = TryFromResult.ok r ∧
        r.raw = root ∧
        (∀ k, KeyReach store (keysOf root) k → ∀ t,
          List.lookup k store = some t → List.lookup k r.tags = some t) ∧
        (∀ k t, List.lookup k r.tags = some t → List.lookup k store = some t) := by
  intro store root rank hrank
  obtain ⟨fuel, hfuel⟩ := stepFuel_suffices store rank hrank
    (((keysOf root).map rank).foldr max 0 + 1) (keysOf root)
    (fun k hk t _ => Nat.lt_succ_of_le (mem_le_foldr_max rank _ k hk))
  rcases stepFuel_empty_path store fuel [] (keysOf root) [] with
    ⟨tags', loads', he⟩ | he
  · have hAemp : Agrees store [] := by
      intro k t hk
      cases hk
    obtain ⟨hA', _, hC'⟩ :=
      stepFuel_mapping store fuel [] [] (keysOf root) [] [] tags' loads' he hAemp
    refine ⟨fuel, ⟨root, tags'⟩, ?_, rfl, hC', hA'⟩
    unfold tryFromFuel
    rw [he]
  · exact absurd he (hfuel [] [])

/-- Claim C2 counterexample: resolving the query `{a}` over the empty
store succeeds, yet `a` — a directly referenced, not-found name — is
absent from the returned mapping instead of being bound to a default
empty record as the claim states (the code skips insertion for not-found
keys; `tags.insert` runs only under `if let Some(tag)`). -/
theorem notfound_key_absent_counterexample :
    tryFromFuel ([] : Store) 2 (RawTag.query ["a"]) =
      TryFromResult.ok ⟨RawTag.query ["a"], []⟩ ∧
    "a" ∈ (RawTag.query ["a"]).include_tags ∧
    List.lookup "a" ((⟨RawTag.query ["a"], []⟩ : ResolvedTags)).tags = none :=
  ⟨by decide, by decide, rfl⟩

theorem acyclic_resolution_amended_witness :
    (∀ k t, List.lookup k chainStore = some t → ∀ k' ∈ keysOf t, ∀ t',
      List.lookup k' chainStore = some t' → chainRank k' < chainRank k) ∧
    (∃ fuel r, tryFromFuel chainStore fuel (RawTag.query ["a"]) =
        TryFromResult.ok r ∧
      r.raw = RawTag.query ["a"] ∧
      (∀ k, KeyReach chainStore (keysOf (RawTag.query ["a"])) k → ∀ t,
        List.lookup k chainStore = some t → List.lookup k r.tags = some t) ∧
      (∀ k t, List.lookup k r.tags = some t →
        List.lookup k chainStore = some t)) := by
  have hrank : ∀ k t, List.lookup k chainStore = some t → ∀ k' ∈ keysOf t, ∀ t',
      List.lookup k' chainStore = some t' → chainRank k' < chainRank k := by
    intro k t hk k' hk' t' hk''
    by_cases h1 : k = "a"
    · subst h1
      have hA : List.lookup "a" chainStore =
          some (⟨["b"], [], ["/p"]⟩ : RawTag) := rfl
      rw [hA] at hk
      injection hk with hk
      subst hk
      have hb : k' = "b" := by simpa [keysOf] using hk'
      subst hb
      decide
    · by_cases h2 : k = "b"
      · subst h2
        have hB : List.lookup "b" chainStore =
            some (⟨[], [], ["/q"]⟩ : RawTag) := rfl
        rw [hB] at hk
        injection hk with hk
        subst hk
        simp [keysOf] at hk'
      · exfalso
        have hb1 : (k == "a") = false := beq_eq_false_iff_ne.mpr h1
        have hb2 : (k == "b") = false := beq_eq_false_iff_ne.mpr h2
        simp [chainStore, List.lookup, hb1, hb2] at hk
  exact ⟨hrank,
    acyclic_resolution_amended chainStore (RawTag.query ["a"]) chainRank hrank⟩
